import Mathlib

/-!
Shallow embedding of the command-dispatch calculator core:
executable units (add / subtract / multiply / divide commands),
the dispatcher (`CommandHandler`) with its size-bounded history,
the plugin registry (`PluginManager`), and the facade (`Calculator`),
together with proofs of the specified properties.
-/

set_option autoImplicit false

namespace Midterm

/-- Operand type: the source uses Python `decimal.Decimal`, i.e. exact
base-10 arbitrary-precision arithmetic (no binary floating point).
Addition, subtraction and multiplication of decimals are exact, so `ℚ`
models them faithfully; division is modelled as exact division. -/
abbrev Dec := ℚ

/-- The four operation variants of the executable-unit contract
(`app/plugins/operations/{add,subtract,multiply,divide}.py`). -/
inductive OpKind where
  | add
  | subtract
  | multiply
  | divide
deriving DecidableEq, Repr

/-- An executable unit (`app/commands/command.py`): binds two operands
`a`, `b`; the concrete subclass (here `kind`) supplies `name` and
`execute`. -/
structure Command where
  kind : OpKind
  a : Dec
  b : Dec
deriving DecidableEq, Repr

/-- The `name` property of each concrete command subclass. -/
def Command.name (c : Command) : String :=
  match c.kind with
  | .add => "add"
  | .subtract => "subtract"
  | .multiply => "multiply"
  | .divide => "divide"

/-- `execute` of each concrete command subclass.  `DivideCommand.execute`
raises `ValueError("Division by zero is not allowed")` exactly when
`self.b == 0`; the other three are total. -/
def Command.execute (c : Command) : Except String Dec :=
  match c.kind with
  | .add => .ok (c.a + c.b)
  | .subtract => .ok (c.a - c.b)
  | .multiply => .ok (c.a * c.b)
  | .divide =>
      if c.b = 0 then .error "Division by zero is not allowed"
      else .ok (c.a / c.b)

/-- Whether a command's computation succeeds (raises no error). -/
def Command.succeeds (c : Command) : Bool :=
  match c.execute with
  | .ok _ => true
  | .error _ => false

/-- Python slice `l[-k:]` for a nonnegative `k`: for `k = 0` it is
`l[0:]`, the whole list; for `k > 0` it keeps the last `min k (len l)`
elements. -/
def pySliceLast {α : Type} (k : Nat) (l : List α) : List α :=
  if k = 0 then l else l.drop (l.length - k)

/-- The dispatcher (`app/commands/command_handler.py`): history list plus
the size bound fixed at construction. -/
structure CommandHandler where
  history : List Command
  max_history_size : Nat
deriving DecidableEq, Repr

/-- `CommandHandler.__init__`: empty history, bound taken from
configuration. -/
def CommandHandler.mk0 (maxSize : Nat) : CommandHandler :=
  { history := [], max_history_size := maxSize }

/-- `CommandHandler.add_to_history`: append, then if
`len(history) > max_history_size` replace the history by the slice
`history[-max_history_size:]`. -/
def CommandHandler.add_to_history (h : CommandHandler) (c : Command) :
    CommandHandler :=
  let hist := h.history ++ [c]
  if hist.length > h.max_history_size then
    { h with history := pySliceLast h.max_history_size hist }
  else
    { h with history := hist }

/-- `CommandHandler.execute`: run the unit's computation; on success
append the unit to history and return the result; on failure re-raise
the same error, leaving the handler state untouched. -/
def CommandHandler.execute (h : CommandHandler) (c : Command) :
    Except String Dec × CommandHandler :=
  match c.execute with
  | .ok r => (.ok r, h.add_to_history c)
  | .error e => (.error e, h)

/-- `CommandHandler.get_history`: the history, insertion order. -/
def CommandHandler.get_history (h : CommandHandler) : List Command :=
  h.history

/-- `CommandHandler.clear_history`: empty the log unconditionally. -/
def CommandHandler.clear_history (h : CommandHandler) : CommandHandler :=
  { h with history := [] }

/-- `CommandHandler.get_latest`: `history[-1]` when nonempty, else
`None`. -/
def CommandHandler.get_latest (h : CommandHandler) : Option Command :=
  h.history.getLast?

/-- `CommandHandler.find_by_command_name`: the historical units whose
name equals the given name, in insertion order. -/
def CommandHandler.find_by_command_name (h : CommandHandler)
    (name : String) : List Command :=
  h.history.filter (fun c => c.name = name)

/-- Run a sequence of commands through the dispatcher, keeping the state
a failed execution leaves behind (the caller catches the re-raised
error, the handler itself is unchanged by a failure). -/
def CommandHandler.executeAll (h : CommandHandler) (cs : List Command) :
    CommandHandler :=
  cs.foldl (fun h c => (h.execute c).2) h

/-! ## Python dictionaries as insertion-ordered association lists

Python dicts preserve insertion order; assigning to an existing key
replaces its value in place, assigning a new key appends it.  The
registry (`PluginManager._plugins`) is a dict of dicts built only by
such assignments, so every dict that arises has pairwise-distinct keys
(`DictWF`). -/

/-- A Python dict with `String` keys, in insertion order. -/
abbrev Dict (α : Type) := List (String × α)

/-- `d[k]` lookup returning `None` when absent (`dict.get`). -/
def dictGet {α : Type} (d : Dict α) (k : String) : Option α :=
  match d with
  | [] => none
  | (k', v) :: t => if k' = k then some v else dictGet t k

/-- `d[k] = v` assignment: replace in place when the key exists, append
otherwise. -/
def dictInsert {α : Type} (d : Dict α) (k : String) (v : α) : Dict α :=
  match d with
  | [] => [(k, v)]
  | (k', v') :: t =>
      if k' = k then (k, v) :: t else (k', v') :: dictInsert t k v

/-- The key sequence of a dict, in order. -/
def dictKeys {α : Type} (d : Dict α) : List String :=
  d.map (fun p => p.1)

/-- `dst.update(src)`: assign every entry of `src` into `dst` in order. -/
def dictUpdate {α : Type} (dst src : Dict α) : Dict α :=
  src.foldl (fun acc p => dictInsert acc p.1 p.2) dst

/-- Well-formedness every dict reachable from `{}` by assignments has:
pairwise-distinct keys. -/
def DictWF {α : Type} (d : Dict α) : Prop :=
  (dictKeys d).Nodup

instance {α : Type} (d : Dict α) : Decidable (DictWF d) :=
  decidable_of_iff ((dictKeys d).Nodup) Iff.rfl

/-! ## The plugin registry (`app/plugins/plugin_manager.py`)

The registry is generic in the descriptor type: it is a two-level index
from plugin type (category) to plugin name to descriptor. -/

/-- `PluginManager`: `_plugins` maps plugin type to a dict of name to
descriptor. -/
structure PluginManager (α : Type) where
  plugins : Dict (Dict α)

/-- `PluginManager.__init__`: empty registry. -/
def PluginManager.mk0 {α : Type} : PluginManager α := ⟨[]⟩

/-- One registration step of `_register_plugins_from_module`: initialize
the type's inner dict if needed, then assign the descriptor under its
name. -/
def PluginManager.register {α : Type} (pm : PluginManager α)
    (ptype pname : String) (p : α) : PluginManager α :=
  let inner := (dictGet pm.plugins ptype).getD []
  ⟨dictInsert pm.plugins ptype (dictInsert inner pname p)⟩

/-- A discoverable capability: its plugin type, name, and descriptor,
in the order module scanning registers them. -/
abbrev Registration (α : Type) := String × String × α

/-- `discover_plugins` over a fixed discoverable set: register each
found descriptor in scan order. -/
def PluginManager.discover {α : Type} (pm : PluginManager α)
    (mods : List (Registration α)) : PluginManager α :=
  mods.foldl (fun pm r => pm.register r.1 r.2.1 r.2.2) pm

/-- `get_plugin(plugin_type, plugin_name)`:
`self._plugins.get(plugin_type, {}).get(plugin_name)`. -/
def PluginManager.get_plugin {α : Type} (pm : PluginManager α)
    (ptype pname : String) : Option α :=
  dictGet ((dictGet pm.plugins ptype).getD []) pname

/-- `get_plugins(plugin_type)` with a type given:
`self._plugins.get(plugin_type, {})`. -/
def PluginManager.get_plugins {α : Type} (pm : PluginManager α)
    (ptype : String) : Dict α :=
  (dictGet pm.plugins ptype).getD []

/-- `get_plugins(None)`: fold `result.update(type_dict)` over the type
dicts in registration order, starting from `{}`. -/
def PluginManager.get_plugins_all {α : Type} (pm : PluginManager α) :
    Dict α :=
  pm.plugins.foldl (fun result p => dictUpdate result p.2) []

/-- A descriptor is registered at `(ptype, pname)` with value `p`:
membership in the two-level index. -/
def PluginManager.Registered {α : Type} (pm : PluginManager α)
    (ptype pname : String) (p : α) : Prop :=
  ∃ d, (ptype, d) ∈ pm.plugins ∧ (pname, p) ∈ d

/-- Registry well-formedness: distinct type keys, and distinct name keys
within each type's dict. -/
def PluginManager.WF {α : Type} (pm : PluginManager α) : Prop :=
  DictWF pm.plugins ∧ ∀ td ∈ pm.plugins, DictWF td.2

/-! ## Descriptors and the facade (`app/calculator.py`) -/

/-- The command class a plugin's `get_command_class` returns: either a
two-operand arithmetic command (the four operation plugins) or a
kwargs-based history command (the persistence plugins, whose behaviour
is external file I/O outside the core). -/
inductive CommandClass where
  | op (kind : OpKind)
  | historyCmd (cname : String)
deriving DecidableEq, Repr

/-- A capability descriptor (a concrete `PluginInterface` subclass):
`get_name`, `get_plugin_type`, `get_command_class`. -/
structure Plugin where
  pname : String
  ptype : String
  cmdClass : CommandClass
deriving DecidableEq, Repr

/-- The registrations `discover_plugins("app.plugins.operations")`
followed by `discover_plugins("app.plugins.history")` perform, in scan
order (modules alphabetically, classes alphabetically within each
module). -/
def builtinRegistrations : List (Registration Plugin) :=
  [ ("operation", "add", ⟨"add", "operation", .op .add⟩),
    ("operation", "divide", ⟨"divide", "operation", .op .divide⟩),
    ("operation", "multiply", ⟨"multiply", "operation", .op .multiply⟩),
    ("operation", "subtract", ⟨"subtract", "operation", .op .subtract⟩),
    ("history", "clear_history",
      ⟨"clear_history", "history", .historyCmd "clear_history"⟩),
    ("history", "delete_history_record",
      ⟨"delete_history_record", "history",
        .historyCmd "delete_history_record"⟩),
    ("history", "history", ⟨"history", "history", .historyCmd "history"⟩),
    ("history", "load_history",
      ⟨"load_history", "history", .historyCmd "load_history"⟩),
    ("history", "save_history",
      ⟨"save_history", "history", .historyCmd "save_history"⟩) ]

/-- The facade state: the dispatcher it owns, the registry, the cached
`_operations` dict and the `_method_cache` of dynamically created
operation methods (each method closes over the plugin class it was
created from).  The pandas-backed persisted CSV history is an external
collaborator outside the core and is not modelled. -/
structure Calculator where
  command_handler : CommandHandler
  plugin_manager : PluginManager Plugin
  operations : Dict Plugin
  method_cache : Dict Plugin

/-- `_create_operation_methods`: for each operation, create and cache a
method only when its name is not already in the cache. -/
def createOperationMethods (cache : Dict Plugin) (ops : Dict Plugin) :
    Dict Plugin :=
  ops.foldl
    (fun cache np =>
      if (dictGet cache np.1).isSome then cache
      else dictInsert cache np.1 np.2)
    cache

/-- `Calculator.__init__` over a discoverable set `mods`: fresh
dispatcher with the configured bound, discovery, `_operations` cache,
dynamic method creation. -/
def Calculator.mk0 (maxSize : Nat) (mods : List (Registration Plugin)) :
    Calculator :=
  let pm := PluginManager.mk0.discover mods
  let ops := pm.get_plugins "operation"
  { command_handler := CommandHandler.mk0 maxSize
    plugin_manager := pm
    operations := ops
    method_cache := createOperationMethods [] ops }

/-- `Calculator.reload_plugins` over a discoverable set `mods`:
re-discover, refresh `_operations`, create methods for new names. -/
def Calculator.reload_plugins (c : Calculator)
    (mods : List (Registration Plugin)) : Calculator :=
  let pm := c.plugin_manager.discover mods
  let ops := pm.get_plugins "operation"
  { c with
    plugin_manager := pm
    operations := ops
    method_cache := createOperationMethods c.method_cache ops }

/-- `Calculator.get_available_operations`: name mapped to the plugin's
type tag, from the cached `_operations`. -/
def Calculator.get_available_operations (c : Calculator) :
    List (String × String) :=
  c.operations.map (fun np => (np.1, np.2.ptype))

/-- Invoking a dynamically created operation method by name: look the
method up among the created attributes, build the command class's unit
with the two operands, submit it to the dispatcher, return its result
(or propagate the dispatcher's error).  A missing attribute raises
`AttributeError`; a kwargs-based command class cannot be applied to two
positional operands (`TypeError`) — neither path is reachable through
the operation names the facade exposes. -/
def Calculator.invoke (c : Calculator) (name : String) (a b : Dec) :
    Except String Dec × Calculator :=
  match dictGet c.method_cache name with
  | none => (.error "AttributeError", c)
  | some p =>
      match p.cmdClass with
      | .op k =>
          let res := c.command_handler.execute ⟨k, a, b⟩
          (res.1, { c with command_handler := res.2 })
      | .historyCmd _ => (.error "TypeError", c)

/-- `MAX_HISTORY_SIZE` (`app/config.py`):
`int(os.getenv("MAX_HISTORY_SIZE", "5"))` — the environment value when
set, else the default `5`. -/
def MAX_HISTORY_SIZE (env : Option Nat) : Nat :=
  env.getD 5

/-- The registrations of `mods` that target plugin type `t`, in scan
order, as (name, descriptor) pairs. -/
def selectType {α : Type} (mods : List (Registration α)) (t : String) :
    List (String × α) :=
  mods.filterMap (fun r => if r.1 = t then some r.2 else none)

/-- The winner rule the flattened `get_plugins(None)` view obeys: scan
the type dicts in registration order and let a later type's entry for
the name override an earlier one. -/
def latestTypeOverrides {α : Type} (pm : PluginManager α) (n : String) :
    Option α :=
  pm.plugins.foldl (fun r td => (dictGet td.2 n).or r) none

/-- A small concrete registry over `Nat` descriptors, for witnesses. -/
def pmExampleA : PluginManager Nat :=
  ((PluginManager.mk0.register "operation" "add" 1).register
      "history" "load_history" 2).register "operation" "divide" 3

/-- A concrete registry in which the name "x" is registered under two
types, for the flattened-view witness. -/
def pmExampleB : PluginManager Nat :=
  ((PluginManager.mk0.register "t1" "x" 1).register "t2" "x" 2).register
    "t1" "y" 3

/-- End-to-end scenario state: a freshly constructed facade with the
default configuration and the built-in discoverable capabilities. -/
def scenarioC6Start : Calculator :=
  Calculator.mk0 (MAX_HISTORY_SIZE none) builtinRegistrations

/-- Scenario step 1: `add(Decimal('5'), Decimal('3'))`. -/
def scenarioC6Step1 : Except String Dec × Calculator :=
  scenarioC6Start.invoke "add" 5 3

/-- Scenario step 2: `subtract(Decimal('10'), Decimal('4'))`. -/
def scenarioC6Step2 : Except String Dec × Calculator :=
  scenarioC6Step1.2.invoke "subtract" 10 4

/-- Scenario step 3: `divide(Decimal('10'), Decimal('0'))`. -/
def scenarioC6Step3 : Except String Dec × Calculator :=
  scenarioC6Step2.2.invoke "divide" 10 0

/-- A freshly constructed facade over the built-in capabilities, for
the reload-idempotence witness. -/
def calcExample : Calculator :=
  Calculator.mk0 (MAX_HISTORY_SIZE none) builtinRegistrations

/-- Follows the spec's words, for the refinement claim: after every
successful append, "while `len(history) > max_size`, remove the single
oldest element". -/
def specEvictOldest (maxSize : Nat) (l : List Command) : List Command :=
  if _h : l.length > maxSize then specEvictOldest maxSize l.tail else l
termination_by l.length
decreasing_by
  simp only [List.length_tail]
  omega

/-! ## Dispatcher lemmas -/

theorem pySliceLast_of_pos {α : Type} (k : Nat) (hk : k ≠ 0) (l : List α) :
    pySliceLast k l = l.drop (l.length - k) := by
  simp [pySliceLast, hk]

theorem add_to_history_max (h : CommandHandler) (c : Command) :
    (h.add_to_history c).max_history_size = h.max_history_size := by
  simp only [CommandHandler.add_to_history]
  split <;> rfl

theorem execute_snd_max (h : CommandHandler) (c : Command) :
    ((h.execute c).2).max_history_size = h.max_history_size := by
  simp only [CommandHandler.execute]
  cases hc : c.execute <;> simp [add_to_history_max]

theorem executeAll_max (cs : List Command) (h : CommandHandler) :
    (h.executeAll cs).max_history_size = h.max_history_size := by
  induction cs generalizing h with
  | nil => rfl
  | cons c cs ih =>
      simp only [CommandHandler.executeAll, List.foldl_cons]
      rw [show (cs.foldl (fun h c => (h.execute c).2) (h.execute c).2)
            = ((h.execute c).2).executeAll cs from rfl]
      rw [ih, execute_snd_max]

theorem mk0_max (m : Nat) : (CommandHandler.mk0 m).max_history_size = m :=
  rfl

theorem add_to_history_history (h : CommandHandler) (c : Command)
    (hmax : 1 ≤ h.max_history_size) :
    (h.add_to_history c).history
      = (h.history ++ [c]).drop (h.history.length + 1 - h.max_history_size) := by
  simp only [CommandHandler.add_to_history]
  split
  case isTrue ht =>
      rw [pySliceLast_of_pos _ (by omega)]
      simp [List.length_append]
  case isFalse hf =>
      simp only [List.length_append, List.length_singleton] at hf
      have h0 : h.history.length + 1 - h.max_history_size = 0 := by omega
      simp [h0]

theorem execute_snd_of_succeeds (h : CommandHandler) (c : Command)
    (hc : c.succeeds = true) : (h.execute c).2 = h.add_to_history c := by
  simp only [Command.succeeds] at hc
  simp only [CommandHandler.execute]
  cases he : c.execute with
  | ok v => rfl
  | error e => rw [he] at hc; simp at hc

theorem executeAll_append_one (h : CommandHandler) (cs : List Command)
    (c : Command) :
    h.executeAll (cs ++ [c]) = ((h.executeAll cs).execute c).2 := by
  simp [CommandHandler.executeAll, List.foldl_append]

theorem executeAll_mk0_history (max : Nat) (hmax : 1 ≤ max)
    (cs : List Command) (hs : ∀ c ∈ cs, c.succeeds = true) :
    ((CommandHandler.mk0 max).executeAll cs).history
      = cs.drop (cs.length - max) := by
  induction cs using List.reverseRecOn with
  | nil => simp [CommandHandler.executeAll, CommandHandler.mk0]
  | append_singleton cs c ih =>
      have hs' : ∀ x ∈ cs, x.succeeds = true := by
        intro x hx; exact hs x (by simp [hx])
      have hc : c.succeeds = true := hs c (by simp)
      rw [executeAll_append_one, execute_snd_of_succeeds _ _ hc]
      rw [add_to_history_history _ _ (by rw [executeAll_max, mk0_max]; exact hmax)]
      rw [executeAll_max, mk0_max, ih hs']
      rcases Nat.lt_or_ge cs.length max with hlt | hge
      · have h1 : cs.length - max = 0 := by omega
        have h2 : (cs.drop 0).length + 1 - max = 0 := by simp; omega
        have h3 : cs.length + 1 - max = 0 := by omega
        simp [h1, h2, List.length_append, h3]
      · have hA : (cs.drop (cs.length - max)).length = max := by
          simp [List.length_drop]; omega
        rw [hA]
        have h4 : max + 1 - max = 1 := by omega
        rw [h4, List.drop_append_eq_append_drop]
        have h5 : 1 - (cs.drop (cs.length - max)).length = 0 := by
          rw [hA]; omega
        rw [h5, List.drop_drop, List.drop_append_eq_append_drop]
        have h6 : cs.length + 1 - max - cs.length = 0 := by omega
        have h7 : 1 + (cs.length - max) = cs.length + 1 - max := by omega
        have h8 : cs.length - max + 1 = cs.length + 1 - max := by omega
        simp [h6, h7, h8]

theorem executeAll_mk0_unbounded (cs : List Command)
    (hs : ∀ c ∈ cs, c.succeeds = true) :
    ((CommandHandler.mk0 0).executeAll cs).history = cs := by
  induction cs using List.reverseRecOn with
  | nil => rfl
  | append_singleton cs c ih =>
      have hs' : ∀ x ∈ cs, x.succeeds = true := by
        intro x hx; exact hs x (by simp [hx])
      have hc : c.succeeds = true := hs c (by simp)
      rw [executeAll_append_one, execute_snd_of_succeeds _ _ hc]
      simp only [CommandHandler.add_to_history]
      split <;> simp_all [pySliceLast, executeAll_max, CommandHandler.mk0]

theorem add_to_history_length_le (h : CommandHandler) (c : Command)
    (hmax : 1 ≤ h.max_history_size)
    (hlen : h.history.length ≤ h.max_history_size) :
    (h.add_to_history c).history.length ≤ h.max_history_size := by
  rw [add_to_history_history _ _ hmax]
  simp only [List.length_drop, List.length_append, List.length_singleton]
  omega

theorem specEvictOldest_eq_drop (max : Nat) (l : List Command) :
    specEvictOldest max l = l.drop (l.length - max) := by
  induction l with
  | nil => simp [specEvictOldest]
  | cons x t ih =>
      rw [specEvictOldest]
      split
      case isTrue ht =>
          simp only [List.tail_cons]
          rw [ih]
          simp only [List.length_cons] at ht ⊢
          have h1 : t.length + 1 - max = (t.length - max) + 1 := by omega
          rw [h1, List.drop_succ_cons]
      case isFalse hf =>
          simp only [List.length_cons] at hf
          have h0 : t.length + 1 - max = 0 := by omega
          simp [h0]

/-! ## Claim theorems: dispatcher and executable units -/

/-- C1 (amended with the precondition `1 ≤ max_size` that the
`max_size = 0` counterexample forces): for every dispatcher with bound
`max_size ≥ 1`, (i) the `length ≤ max_size` bound is preserved by
`execute` and by `clear_history`; (ii) after `N > max_size` successful
executions from a fresh dispatcher, the history length equals
`max_size` and `history[0]` is the `(N - max_size + 1)`-th executed
command (0-based index `N - max_size`); (iii) with `max_size = 3`, five
adds with first operand `1..5` leave history `a`-values `[3, 4, 5]`. -/
theorem claim_C1_history_bound (max : Nat) (hmax : 1 ≤ max) :
    (∀ (h : CommandHandler) (c : Command), h.max_history_size = max →
        h.history.length ≤ max →
        ((h.execute c).2).history.length ≤ max
          ∧ (h.clear_history).history.length ≤ max)
    ∧ (∀ cs : List Command, (∀ c ∈ cs, c.succeeds = true) →
        max < cs.length →
        ((CommandHandler.mk0 max).executeAll cs).history.length = max
          ∧ ((CommandHandler.mk0 max).executeAll cs).history.head?
              = cs[cs.length - max]?)
    ∧ (((CommandHandler.mk0 3).executeAll
          ([(1:Dec), 2, 3, 4, 5].map (fun a => ⟨.add, a, 0⟩))).history.map
            (fun c => c.a) = [3, 4, 5]) := by
  refine ⟨?_, ?_, by decide⟩
  · intro h c hm hl
    refine ⟨?_, by simp [CommandHandler.clear_history]⟩
    simp only [CommandHandler.execute]
    cases he : c.execute with
    | ok v =>
        have := add_to_history_length_le h c (by omega) (by omega)
        simpa [hm] using this
    | error e => simpa using hl
  · intro cs hsucc hlen
    have hh := executeAll_mk0_history max hmax cs hsucc
    refine ⟨?_, ?_⟩
    · rw [hh]
      simp only [List.length_drop]
      omega
    · rw [hh, List.head?_drop]

/-- C1 as frozen fails on the code at `max_size = 0`: one successful
add execution (`N = 1 > 0 = max_size`) leaves a history of length `1`,
not `max_size = 0`. -/
theorem claim_C1_counterexample :
    (Command.succeeds ⟨.add, (1 : Dec), 0⟩ = true)
    ∧ 0 < ([⟨.add, (1 : Dec), 0⟩] : List Command).length
    ∧ ¬ ((CommandHandler.mk0 0).executeAll
          [⟨.add, (1 : Dec), 0⟩]).history.length = 0 := by
  decide

/-- C1 witness: the amended claim instantiated at `max_size = 3` and
the five-add scenario. -/
theorem claim_C1_witness :
    (1 : Nat) ≤ 3
    ∧ ((CommandHandler.mk0 3).executeAll
        ([(1:Dec), 2, 3, 4, 5].map (fun a => ⟨.add, a, 0⟩))).history.length = 3
    ∧ ((CommandHandler.mk0 3).executeAll
        ([(1:Dec), 2, 3, 4, 5].map (fun a => ⟨.add, a, 0⟩))).history.map
          (fun c => c.a) = [3, 4, 5] :=
  ⟨by decide,
   ((claim_C1_history_bound 3 (by decide)).2.1
      ([(1:Dec), 2, 3, 4, 5].map (fun a => ⟨.add, a, 0⟩))
      (by decide) (by decide)).1,
   (claim_C1_history_bound 3 (by decide)).2.2⟩

/-- C2: the divide command fails with the domain error exactly when the
second operand equals zero (exact comparison of decimals); for a
nonzero divisor it returns `a / b`; a zero-divisor execution through
the dispatcher leaves the history untouched. -/
theorem claim_C2_divide_domain_error (a b : Dec) :
    ((Command.mk .divide a b).execute
        = .error "Division by zero is not allowed" ↔ b = 0)
    ∧ (b ≠ 0 → (Command.mk .divide a b).execute = .ok (a / b))
    ∧ (∀ h : CommandHandler, b = 0 →
        ((h.execute ⟨.divide, a, b⟩).2).history = h.history) := by
  refine ⟨?_, ?_, ?_⟩
  · by_cases hb : b = 0 <;> simp [Command.execute, hb]
  · intro hb
    simp [Command.execute, hb]
  · intro h hb
    simp [CommandHandler.execute, Command.execute, hb]

/-- C2 witness: `1 / 2` succeeds with the exact quotient; `1 / 0` fails
with the domain error and leaves a fresh dispatcher's history empty. -/
theorem claim_C2_witness :
    ((Command.mk .divide (1 : Dec) 2).execute = .ok (1 / 2))
    ∧ ((Command.mk .divide (1 : Dec) 0).execute
        = .error "Division by zero is not allowed")
    ∧ (((CommandHandler.mk0 5).execute ⟨.divide, (1 : Dec), 0⟩).2.history
        = (CommandHandler.mk0 5).history) :=
  ⟨(claim_C2_divide_domain_error 1 2).2.1 (by norm_num),
   (claim_C2_divide_domain_error 1 0).1.mpr rfl,
   (claim_C2_divide_domain_error 1 0).2.2 (CommandHandler.mk0 5) rfl⟩

/-- C3: when a command's computation signals an error, the dispatcher's
`execute` propagates the very same error and the history contents after
the failed call equal the contents before it. -/
theorem claim_C3_failure_no_trace (h : CommandHandler) (c : Command)
    (e : String) (he : c.execute = .error e) :
    (h.execute c).1 = .error e ∧ ((h.execute c).2).history = h.history := by
  simp [CommandHandler.execute, he]

/-- C3 witness: divide-by-zero through a fresh dispatcher propagates
the domain error and leaves the (empty) history unchanged. -/
theorem claim_C3_witness :
    ((Command.mk .divide (10 : Dec) 0).execute
        = .error "Division by zero is not allowed")
    ∧ (((CommandHandler.mk0 5).execute ⟨.divide, (10 : Dec), 0⟩).1
        = .error "Division by zero is not allowed")
    ∧ (((CommandHandler.mk0 5).execute ⟨.divide, (10 : Dec), 0⟩).2.history
        = (CommandHandler.mk0 5).history) := by
  have hp := claim_C3_failure_no_trace (CommandHandler.mk0 5)
    ⟨.divide, (10 : Dec), 0⟩ "Division by zero is not allowed"
    (by simp [Command.execute])
  exact ⟨by simp [Command.execute], hp.1, hp.2⟩

/-- C4: add returns exactly `a + b` under exact decimal semantics, is
commutative, and `0.1 + 0.2` computes exactly to `0.3`. -/
theorem claim_C4_add_exact_commutative (a b : Dec) :
    (Command.mk .add a b).execute = .ok (a + b)
    ∧ (Command.mk .add a b).execute = (Command.mk .add b a).execute
    ∧ (Command.mk .add (0.1 : Dec) 0.2).execute = .ok 0.3 := by
  refine ⟨rfl, ?_, ?_⟩
  · simp only [Command.execute]
    rw [add_comm]
  · simp only [Command.execute]
    norm_num

/-- C5: for `max_size ≥ 1` and a history reachable by one-at-a-time
appends (so its length is within the bound), the code's slice-based
eviction yields exactly the history the spec's remove-the-oldest loop
yields, and at most one element is removed per append (the length never
decreases across `add_to_history`). -/
theorem claim_C5_slice_refines_evict_loop (max : Nat) (h : CommandHandler)
    (c : Command) (hmax : 1 ≤ max) (hm : h.max_history_size = max)
    (hlen : h.history.length ≤ max) :
    (h.add_to_history c).history = specEvictOldest max (h.history ++ [c])
    ∧ h.history.length ≤ (h.add_to_history c).history.length := by
  have hmax' : 1 ≤ h.max_history_size := by omega
  rw [add_to_history_history _ _ hmax', specEvictOldest_eq_drop]
  refine ⟨?_, ?_⟩
  · congr 1
    simp [hm]
  · simp only [List.length_drop, List.length_append, List.length_singleton]
    omega

/-- C5 witness: a full three-slot history plus one append, under both
algorithms. -/
theorem claim_C5_witness :
    ((CommandHandler.mk (
        [⟨.add, (1:Dec), 0⟩, ⟨.add, 2, 0⟩, ⟨.add, 3, 0⟩]) 3).add_to_history
          ⟨.add, 4, 0⟩).history
      = specEvictOldest 3
          ([⟨.add, (1:Dec), 0⟩, ⟨.add, 2, 0⟩, ⟨.add, 3, 0⟩] ++ [⟨.add, 4, 0⟩])
    ∧ (3 : Nat) ≤ ((CommandHandler.mk (
        [⟨.add, (1:Dec), 0⟩, ⟨.add, 2, 0⟩, ⟨.add, 3, 0⟩]) 3).add_to_history
          ⟨.add, 4, 0⟩).history.length :=
  claim_C5_slice_refines_evict_loop 3
    (CommandHandler.mk [⟨.add, (1:Dec), 0⟩, ⟨.add, 2, 0⟩, ⟨.add, 3, 0⟩] 3)
    ⟨.add, 4, 0⟩ (by decide) rfl (by decide)

/-- C9: with `max_history_size = 0` (reachable through the
`MAX_HISTORY_SIZE` environment variable), the slice `history[-0:]`
keeps the whole list, `add_to_history` never removes an element, and
after `N` successful executions the history length is `N`. -/
theorem claim_C9_zero_bound_unbounded :
    (∀ l : List Command, pySliceLast 0 l = l)
    ∧ (∀ (h : CommandHandler) (c : Command), h.max_history_size = 0 →
        (h.add_to_history c).history = h.history ++ [c])
    ∧ (∀ cs : List Command, (∀ c ∈ cs, c.succeeds = true) →
        ((CommandHandler.mk0 (MAX_HISTORY_SIZE (some 0))).executeAll
            cs).history.length = cs.length) := by
  refine ⟨?_, ?_, ?_⟩
  · intro l
    simp [pySliceLast]
  · intro h c hm
    simp only [CommandHandler.add_to_history, hm]
    split <;> simp [pySliceLast]
  · intro cs hs
    have h0 : MAX_HISTORY_SIZE (some 0) = 0 := rfl
    rw [h0, executeAll_mk0_unbounded cs hs]

/-- C9 witness: six successful adds against the default bound's worth
of slots at `MAX_HISTORY_SIZE = 0` all stay in history. -/
theorem claim_C9_witness :
    (∀ c ∈ ([(1:Dec), 2, 3, 4, 5, 6].map (fun a => ⟨.add, a, 0⟩) :
        List Command), c.succeeds = true)
    ∧ ((CommandHandler.mk0 (MAX_HISTORY_SIZE (some 0))).executeAll
        ([(1:Dec), 2, 3, 4, 5, 6].map
          (fun a => ⟨.add, a, 0⟩))).history.length = 6 :=
  ⟨by decide,
   (claim_C9_zero_bound_unbounded.2.2
      ([(1:Dec), 2, 3, 4, 5, 6].map (fun a => ⟨.add, a, 0⟩)) (by decide))⟩

/-! ## Dictionary lemmas -/

theorem dictGet_dictInsert {α : Type} (d : Dict α) (k q : String) (v : α) :
    dictGet (dictInsert d k v) q
      = if k = q then some v else dictGet d q := by
  induction d with
  | nil => simp [dictInsert, dictGet]
  | cons p t ih =>
      obtain ⟨k', v'⟩ := p
      by_cases hk : k' = k
      · subst hk
        by_cases hq : k' = q <;> simp [dictInsert, dictGet, hq]
      · by_cases hq : k' = q
        · subst hq
          have hkq : ¬ k = k' := fun h => hk h.symm
          simp [dictInsert, dictGet, hk, hkq]
        · simp [dictInsert, dictGet, hk, hq, ih]

theorem dictKeys_dictInsert {α : Type} (d : Dict α) (k : String) (v : α) :
    dictKeys (dictInsert d k v)
      = if k ∈ dictKeys d then dictKeys d else dictKeys d ++ [k] := by
  induction d with
  | nil => simp [dictInsert, dictKeys]
  | cons p t ih =>
      obtain ⟨k', v'⟩ := p
      by_cases hk : k' = k
      · subst hk
        simp [dictInsert, dictKeys]
      · have hk' : ¬ k = k' := fun h => hk h.symm
        simp only [dictInsert, if_neg hk, dictKeys, List.map_cons] at ih ⊢
        rw [ih]
        by_cases hm : k ∈ List.map (fun p => p.1) t
        · simp [hm, hk']
        · simp [hm, hk']

theorem dictGet_eq_none_iff {α : Type} (d : Dict α) (q : String) :
    dictGet d q = none ↔ q ∉ dictKeys d := by
  induction d with
  | nil => simp [dictGet, dictKeys]
  | cons p t ih =>
      obtain ⟨k', v'⟩ := p
      have hkeys : dictKeys ((k', v') :: t) = k' :: dictKeys t := rfl
      by_cases hq : k' = q
      · subst hq
        simp [dictGet, hkeys]
      · have hget : dictGet ((k', v') :: t) q = dictGet t q := by
          simp [dictGet, hq]
        rw [hget, hkeys, ih]
        simp only [List.mem_cons, not_or]
        constructor
        · intro h
          exact ⟨fun he => hq he.symm, h⟩
        · intro h
          exact h.2

theorem dictWF_dictInsert {α : Type} (d : Dict α) (k : String) (v : α)
    (hwf : DictWF d) : DictWF (dictInsert d k v) := by
  unfold DictWF at hwf ⊢
  rw [dictKeys_dictInsert]
  by_cases hm : k ∈ dictKeys d
  · simp [hm, hwf]
  · simp [hm, List.nodup_append, hwf]

theorem dictGet_mem_iff {α : Type} (d : Dict α) (q : String) (v : α)
    (hwf : DictWF d) : dictGet d q = some v ↔ (q, v) ∈ d := by
  induction d with
  | nil => simp [dictGet]
  | cons p t ih =>
      obtain ⟨k', v'⟩ := p
      have hwf' : DictWF t := by
        unfold DictWF at hwf ⊢
        simp [dictKeys] at hwf
        exact hwf.2
      have hknot : k' ∉ dictKeys t := by
        unfold DictWF at hwf
        simp [dictKeys] at hwf ⊢
        exact hwf.1
      by_cases hq : k' = q
      · subst hq
        simp only [dictGet, if_pos rfl, List.mem_cons]
        constructor
        · intro h
          left
          simpa [eq_comm] using congrArg (Option.getD · v') h
        · rintro (h | h)
          · simp [Prod.ext_iff] at h
            simp [h]
          · exact absurd (List.mem_map_of_mem Prod.fst h) hknot
      · simp only [dictGet, if_neg hq, List.mem_cons, ih hwf']
        constructor
        · intro h
          right
          exact h
        · rintro (h | h)
          · exact absurd (congrArg Prod.fst h).symm hq
          · exact h

theorem dictGet_dictUpdate {α : Type} (l : List (String × α)) (d : Dict α)
    (q : String) :
    dictGet (dictUpdate d l) q
      = l.foldl (fun r p => if p.1 = q then some p.2 else r) (dictGet d q) := by
  induction l generalizing d with
  | nil => rfl
  | cons p t ih =>
      show dictGet (dictUpdate (dictInsert d p.1 p.2) t) q = _
      rw [ih, dictGet_dictInsert]
      rfl

theorem foldl_step_of_not_mem {α : Type} (l : List (String × α)) (q : String)
    (x : Option α) (h : ∀ p ∈ l, p.1 ≠ q) :
    l.foldl (fun r p => if p.1 = q then some p.2 else r) x = x := by
  induction l generalizing x with
  | nil => rfl
  | cons p t ih =>
      have hp : ¬ p.1 = q := h p (by simp)
      simp only [List.foldl_cons, if_neg hp]
      exact ih x (fun e he => h e (by simp [he]))

theorem foldl_step_init_irrel {α : Type} (l : List (String × α)) (q : String)
    (hx : ∃ p ∈ l, p.1 = q) (x y : Option α) :
    l.foldl (fun r p => if p.1 = q then some p.2 else r) x
      = l.foldl (fun r p => if p.1 = q then some p.2 else r) y := by
  induction l generalizing x y with
  | nil => simp at hx
  | cons p t ih =>
      by_cases hp : p.1 = q
      · simp only [List.foldl_cons, if_pos hp]
      · simp only [List.foldl_cons, if_neg hp]
        rcases hx with ⟨e, he, hq⟩
        rcases List.mem_cons.mp he with rfl | het
        · exact absurd hq hp
        · exact ih ⟨e, het, hq⟩ x y

theorem foldl_step_idem {α : Type} (l : List (String × α)) (q : String)
    (x : Option α) :
    l.foldl (fun r p => if p.1 = q then some p.2 else r)
        (l.foldl (fun r p => if p.1 = q then some p.2 else r) x)
      = l.foldl (fun r p => if p.1 = q then some p.2 else r) x := by
  by_cases hx : ∃ p ∈ l, p.1 = q
  · exact foldl_step_init_irrel l q hx _ x
  · push_neg at hx
    rw [foldl_step_of_not_mem l q _ hx, foldl_step_of_not_mem l q _ hx]

theorem mem_dictKeys_of_mem {α : Type} (e : String × α) (t : Dict α)
    (he : e ∈ t) : e.1 ∈ dictKeys t :=
  List.mem_map_of_mem _ he

theorem dictWF_cons {α : Type} {k : String} {v : α} {t : Dict α}
    (h : DictWF ((k, v) :: t)) : k ∉ dictKeys t ∧ DictWF t := by
  unfold DictWF dictKeys at h ⊢
  simpa using h

theorem foldl_step_or_of_wf {α : Type} (src : Dict α) (q : String)
    (x : Option α) (hwf : DictWF src) :
    src.foldl (fun r p => if p.1 = q then some p.2 else r) x
      = (dictGet src q).or x := by
  induction src generalizing x with
  | nil => rfl
  | cons p t ih =>
      obtain ⟨k', v'⟩ := p
      have hpkey : k' ∉ dictKeys t := (dictWF_cons hwf).1
      have hwf' : DictWF t := (dictWF_cons hwf).2
      by_cases hp : k' = q
      · have hnot : ∀ e ∈ t, e.1 ≠ q := by
          intro e he hq
          apply hpkey
          have hm := mem_dictKeys_of_mem e t he
          rw [hq, ← hp] at hm
          exact hm
        simp only [List.foldl_cons, hp, if_pos]
        rw [foldl_step_of_not_mem t q (some v') hnot]
        simp [dictGet, hp]
      · simp only [List.foldl_cons, if_neg hp]
        rw [ih _ hwf']
        simp [dictGet, hp]

theorem dictKeys_dictUpdate_of_subset {α : Type} (l : List (String × α))
    (d : Dict α) (h : ∀ k ∈ l.map Prod.fst, k ∈ dictKeys d) :
    dictKeys (dictUpdate d l) = dictKeys d := by
  induction l generalizing d with
  | nil => rfl
  | cons p t ih =>
      show dictKeys (dictUpdate (dictInsert d p.1 p.2) t) = _
      have hp : p.1 ∈ dictKeys d := h p.1 (by simp)
      have hkeys : dictKeys (dictInsert d p.1 p.2) = dictKeys d := by
        rw [dictKeys_dictInsert, if_pos hp]
      rw [ih (dictInsert d p.1 p.2) (fun k hk => by
        rw [hkeys]; exact h k (by simp [hk])), hkeys]

theorem mem_dictKeys_dictInsert_of_mem {α : Type} (d : Dict α)
    (k k' : String) (v : α) (h : k ∈ dictKeys d) :
    k ∈ dictKeys (dictInsert d k' v) := by
  rw [dictKeys_dictInsert]
  split
  · exact h
  · simp [h]

theorem mem_dictKeys_dictUpdate_left {α : Type} (l : List (String × α))
    (d : Dict α) (k : String) (h : k ∈ dictKeys d) :
    k ∈ dictKeys (dictUpdate d l) := by
  induction l generalizing d with
  | nil => exact h
  | cons p t ih =>
      exact ih (dictInsert d p.1 p.2)
        (mem_dictKeys_dictInsert_of_mem d k p.1 p.2 h)

theorem mem_dictKeys_dictUpdate_right {α : Type} (l : List (String × α))
    (d : Dict α) (k : String) (h : k ∈ l.map Prod.fst) :
    k ∈ dictKeys (dictUpdate d l) := by
  induction l generalizing d with
  | nil => simp at h
  | cons p t ih =>
      rcases List.mem_cons.mp h with rfl | ht
      · refine mem_dictKeys_dictUpdate_left t _ _ ?_
        rw [dictKeys_dictInsert]
        split
        · assumption
        · simp
      · exact ih (dictInsert d p.1 p.2) ht

theorem dictWF_dictUpdate {α : Type} (l : List (String × α)) (d : Dict α)
    (hwf : DictWF d) : DictWF (dictUpdate d l) := by
  induction l generalizing d with
  | nil => exact hwf
  | cons p t ih => exact ih _ (dictWF_dictInsert d p.1 p.2 hwf)

theorem dict_ext {α : Type} (d1 : Dict α) (d2 : Dict α) (hwf : DictWF d1)
    (hkeys : dictKeys d1 = dictKeys d2)
    (hget : ∀ q, dictGet d1 q = dictGet d2 q) : d1 = d2 := by
  induction d1 generalizing d2 with
  | nil =>
      cases d2 with
      | nil => rfl
      | cons p t => simp [dictKeys] at hkeys
  | cons p t1 ih =>
      obtain ⟨k, v⟩ := p
      cases d2 with
      | nil => simp [dictKeys] at hkeys
      | cons p2 t2 =>
          obtain ⟨k2, v2⟩ := p2
          have hkk : k = k2 ∧ dictKeys t1 = dictKeys t2 := by
            simpa [dictKeys] using hkeys
          obtain ⟨rfl, hkeys'⟩ := hkk
          have hv : some v = some v2 := by
            have h := hget k
            simpa [dictGet] using h
          have hwf' : DictWF t1 := (dictWF_cons hwf).2
          have hknot : k ∉ dictKeys t1 := (dictWF_cons hwf).1
          have hget' : ∀ q, dictGet t1 q = dictGet t2 q := by
            intro q
            by_cases hq : q = k
            · subst hq
              rw [(dictGet_eq_none_iff t1 q).mpr hknot,
                (dictGet_eq_none_iff t2 q).mpr (hkeys' ▸ hknot)]
            · have h := hget q
              have hq' : ¬ k = q := fun he => hq he.symm
              simpa [dictGet, hq'] using h
          rw [Option.some.injEq] at hv
          rw [hv, ih t2 hwf' hkeys' hget']

theorem dictUpdate_idem {α : Type} (d : Dict α) (l : List (String × α))
    (hwf : DictWF d) : dictUpdate (dictUpdate d l) l = dictUpdate d l := by
  have hwf1 : DictWF (dictUpdate d l) := dictWF_dictUpdate l d hwf
  refine dict_ext _ _ (dictWF_dictUpdate l _ hwf1) ?_ ?_
  · exact dictKeys_dictUpdate_of_subset l (dictUpdate d l)
      (fun k hk => mem_dictKeys_dictUpdate_right l d k hk)
  · intro q
    rw [dictGet_dictUpdate, dictGet_dictUpdate, foldl_step_idem]

/-! ## Registry lemmas -/

theorem discover_cons {α : Type} (pm : PluginManager α) (r : Registration α)
    (ms : List (Registration α)) :
    pm.discover (r :: ms) = (pm.register r.1 r.2.1 r.2.2).discover ms :=
  rfl

theorem dictUpdate_cons {α : Type} (d : Dict α) (x : String × α)
    (l : List (String × α)) :
    dictUpdate d (x :: l) = dictUpdate (dictInsert d x.1 x.2) l :=
  rfl

theorem register_get_plugins {α : Type} (pm : PluginManager α)
    (t n : String) (p : α) (t' : String) :
    (pm.register t n p).get_plugins t'
      = if t = t' then dictInsert (pm.get_plugins t') n p
        else pm.get_plugins t' := by
  unfold PluginManager.register PluginManager.get_plugins
  simp only [dictGet_dictInsert]
  by_cases ht : t = t'
  · subst ht
    simp
  · simp [ht]

theorem discover_get_plugins {α : Type} (pm : PluginManager α)
    (mods : List (Registration α)) (t : String) :
    (pm.discover mods).get_plugins t
      = dictUpdate (pm.get_plugins t) (selectType mods t) := by
  induction mods generalizing pm with
  | nil => rfl
  | cons r ms ih =>
      rw [discover_cons, ih, register_get_plugins]
      by_cases hr : r.1 = t
      · rw [if_pos hr]
        have hsel : selectType (r :: ms) t = r.2 :: selectType ms t := by
          simp [selectType, hr]
        rw [hsel, dictUpdate_cons]
      · rw [if_neg hr]
        have hsel : selectType (r :: ms) t = selectType ms t := by
          simp [selectType, hr]
        rw [hsel]

theorem discover_discover_get_plugins {α : Type} (pm : PluginManager α)
    (mods : List (Registration α)) (t : String)
    (hwf : DictWF (pm.get_plugins t)) :
    ((pm.discover mods).discover mods).get_plugins t
      = (pm.discover mods).get_plugins t := by
  have h1 := discover_get_plugins (pm.discover mods) mods t
  have h2 := discover_get_plugins pm mods t
  rw [h1, h2]
  exact dictUpdate_idem _ _ hwf

theorem dictGet_foldl_dictUpdate {α : Type} (L : Dict (Dict α))
    (hwf : ∀ td ∈ L, DictWF td.2) (n : String) :
    ∀ acc, dictGet (L.foldl (fun res td => dictUpdate res td.2) acc) n
      = L.foldl (fun r td => (dictGet td.2 n).or r) (dictGet acc n) := by
  induction L with
  | nil => intro acc; rfl
  | cons td L' ih =>
      intro acc
      simp only [List.foldl_cons]
      rw [ih (fun e he => hwf e (by simp [he])) (dictUpdate acc td.2)]
      rw [dictGet_dictUpdate, foldl_step_or_of_wf td.2 n _ (hwf td (by simp))]

theorem foldl_or_eq_none_iff {α : Type} (L : Dict (Dict α)) (n : String) :
    ∀ x, L.foldl (fun r td => (dictGet td.2 n).or r) x = none
      ↔ (x = none ∧ ∀ td ∈ L, dictGet td.2 n = none) := by
  induction L with
  | nil => intro x; simp
  | cons td L' ih =>
      intro x
      simp only [List.foldl_cons]
      rw [ih]
      cases hg : dictGet td.2 n with
      | none => simp [Option.or, hg]
      | some v =>
          simp only [Option.or]
          constructor
          · rintro ⟨h, _⟩
            exact absurd h (by simp)
          · rintro ⟨_, hall⟩
            exact absurd (hall td (by simp)) (by simp [hg])

/-! ## Claim theorems: registry and facade -/

/-- C7: exact lookup `get_plugin` returns the registered descriptor
exactly when one is registered at the (category, name) pair and the
explicit absent value (`None`) otherwise, never raising; `get_plugins`
of an unknown category returns the empty map. -/
theorem claim_C7_lookup_total {α : Type} (pm : PluginManager α)
    (hwf : pm.WF) (t n : String) :
    (∀ p : α, pm.get_plugin t n = some p ↔ pm.Registered t n p)
    ∧ (pm.get_plugin t n = none ↔ ¬ ∃ p, pm.Registered t n p)
    ∧ (t ∉ dictKeys pm.plugins → pm.get_plugins t = []) := by
  obtain ⟨houter, hinner⟩ := hwf
  have hmain : ∀ p : α, pm.get_plugin t n = some p ↔ pm.Registered t n p := by
    intro p
    unfold PluginManager.get_plugin PluginManager.Registered
    cases hd : dictGet pm.plugins t with
    | none =>
        simp only [Option.getD_none]
        constructor
        · intro h
          simp [dictGet] at h
        · rintro ⟨d, hmem, hnd⟩
          have hsome := (dictGet_mem_iff pm.plugins t d houter).mpr hmem
          rw [hd] at hsome
          exact absurd hsome (by simp)
    | some d =>
        simp only [Option.getD_some]
        have hdmem : (t, d) ∈ pm.plugins :=
          (dictGet_mem_iff pm.plugins t d houter).mp hd
        have hdwf : DictWF d := hinner (t, d) hdmem
        rw [dictGet_mem_iff d n p hdwf]
        constructor
        · intro h
          exact ⟨d, hdmem, h⟩
        · rintro ⟨d', hm', hn'⟩
          have hsome : dictGet pm.plugins t = some d' :=
            (dictGet_mem_iff pm.plugins t d' houter).mpr hm'
          obtain rfl : d = d' := Option.some.inj (hd.symm.trans hsome)
          exact hn'
  refine ⟨hmain, ?_, ?_⟩
  · constructor
    · rintro h ⟨p, hp⟩
      have hs := (hmain p).mpr hp
      rw [h] at hs
      exact absurd hs (by simp)
    · intro h
      cases hg : pm.get_plugin t n with
      | none => rfl
      | some p => exact absurd ⟨p, (hmain p).mp hg⟩ h
  · intro ht
    unfold PluginManager.get_plugins
    rw [(dictGet_eq_none_iff _ _).mpr ht]
    rfl

/-- C7 witness: a concrete registry where lookup hits, misses, and an
unknown category all behave as stated. -/
theorem claim_C7_witness :
    pmExampleA.WF
    ∧ pmExampleA.get_plugin "operation" "add" = some 1
    ∧ pmExampleA.Registered "operation" "add" 1
    ∧ pmExampleA.get_plugin "operation" "missing" = none
    ∧ pmExampleA.get_plugins "unknown" = [] := by
  have hwf : pmExampleA.WF := ⟨by decide, by decide⟩
  refine ⟨hwf, by decide, ?_, by decide, ?_⟩
  · exact ((claim_C7_lookup_total pmExampleA hwf "operation" "add").1 1).mp
      (by decide)
  · exact (claim_C7_lookup_total pmExampleA hwf "unknown" "n").2.2 (by decide)

/-- C10: the flattened `get_plugins(None)` view looks a name up to the
entry of the latest type dict (in first-registration order) containing
that name — later types' `dict.update` calls override earlier ones —
and is absent exactly when no type dict contains the name. -/
theorem claim_C10_flattened_view {α : Type} (pm : PluginManager α)
    (hwf : pm.WF) (n : String) :
    dictGet pm.get_plugins_all n = latestTypeOverrides pm n
    ∧ (dictGet pm.get_plugins_all n = none
        ↔ ∀ td ∈ pm.plugins, dictGet td.2 n = none) := by
  have hchar : dictGet pm.get_plugins_all n = latestTypeOverrides pm n := by
    unfold PluginManager.get_plugins_all latestTypeOverrides
    rw [dictGet_foldl_dictUpdate pm.plugins hwf.2 n []]
    rfl
  refine ⟨hchar, ?_⟩
  rw [hchar]
  unfold latestTypeOverrides
  rw [foldl_or_eq_none_iff]
  simp

/-- C10 witness: the name "x" lives under both "t1" (registered first)
and "t2"; the flattened view returns the "t2" descriptor. -/
theorem claim_C10_witness :
    pmExampleB.WF
    ∧ dictGet pmExampleB.get_plugins_all "x" = latestTypeOverrides pmExampleB "x"
    ∧ dictGet pmExampleB.get_plugins_all "x" = some 2 := by
  have hwf : pmExampleB.WF := ⟨by decide, by decide⟩
  exact ⟨hwf, (claim_C10_flattened_view pmExampleB hwf "x").1, by decide⟩

/-- C8: reloading twice with the same discoverable capability set
yields the same `available()` mapping of exposed capability names to
category tags as reloading once (for any facade whose "operation" dict
has the distinct keys every Python-reachable dict has). -/
theorem claim_C8_reload_idempotent (c : Calculator)
    (mods : List (Registration Plugin))
    (hwf : DictWF (c.plugin_manager.get_plugins "operation")) :
    ((c.reload_plugins mods).reload_plugins mods).get_available_operations
      = (c.reload_plugins mods).get_available_operations := by
  unfold Calculator.reload_plugins Calculator.get_available_operations
  simp only
  congr 1
  exact discover_discover_get_plugins c.plugin_manager mods "operation" hwf

/-- C8 witness: a fresh facade over the built-in capabilities, reloaded
once and twice with the same set. -/
theorem claim_C8_witness :
    DictWF (calcExample.plugin_manager.get_plugins "operation")
    ∧ ((calcExample.reload_plugins builtinRegistrations).reload_plugins
          builtinRegistrations).get_available_operations
      = (calcExample.reload_plugins
          builtinRegistrations).get_available_operations :=
  ⟨by decide,
   claim_C8_reload_idempotent calcExample builtinRegistrations (by decide)⟩

/-- C6: on a freshly constructed facade, `add(5, 3)` returns `8`,
`subtract(10, 4)` returns `6`, `divide(10, 0)` fails with the domain
error; afterwards the dispatcher's history holds exactly the two
successful units and its latest entry is the subtract command, whose
name is "subtract". -/
theorem claim_C6_end_to_end :
    scenarioC6Step1.1 = .ok 8
    ∧ scenarioC6Step2.1 = .ok 6
    ∧ scenarioC6Step3.1 = .error "Division by zero is not allowed"
    ∧ scenarioC6Step3.2.command_handler.history.length = 2
    ∧ scenarioC6Step3.2.command_handler.get_latest
        = some ⟨.subtract, 10, 4⟩
    ∧ (Command.mk .subtract 10 4).name = "subtract" := by
  have h1 : scenarioC6Step1.1 = .ok (5 + 3) := rfl
  have h2 : scenarioC6Step2.1 = .ok (10 - 4) := rfl
  refine ⟨?_, ?_, rfl, by decide, by decide, rfl⟩
  · rw [h1]
    norm_num
  · rw [h2]
    norm_num

end Midterm
